import Mathlib

/-!
Verification of the feed-synchronization layer of the FriendlyPix web client
(`src/FirebaseHelper.js` and `src/Feed.js`).

Modelling conventions, taken directly from the source and the backend it runs
against:

* Database keys (post ids, comment ids, user ids) are opaque identifiers
  assigned in creation order and compared by the store's key order; we model
  them as `Nat`.
* A feed node (`/posts`, `/feed/{uid}`, `/people/{uid}/posts`, ...) is a map
  from keys to values; a range query over it enumerates the keys in ascending
  order, and the snapshot object handed to JavaScript preserves that order, so
  `Object.keys` on a fetched page is the ascending key list.  We therefore
  model the key set of a feed as a strictly ascending `List Nat`.
* Values stored in the database are JSON primitives (booleans and strings);
  `DBVal` models the two shapes the follow machinery stores.
-/

namespace FriendlyPix

/-- A value stored at a database leaf by the follow machinery: either a
boolean marker or a post-id string (the home-feed sync cursor). -/
inductive DBVal where
  | boolVal : Bool → DBVal
  | strVal : Nat → DBVal
deriving DecidableEq

/-- `snapshot.val() instanceof String` as evaluated by the source.  The
database stores JSON primitives, so `val()` yields a primitive boolean or a
primitive string, and in JavaScript a primitive string is never an
`instanceof String` (only boxed `String` objects are).  Hence this test is
`false` for every value the database can hand back. -/
def instanceofString (_ : DBVal) : Bool := false

/-- The result of one page fetch of `_getPaginatedFeed`: the page's entry ids
in ascending key order, and the id captured by the `nextPage` closure (the
oldest id of the over-fetched batch), or `none` when the fetch is terminal. -/
structure Page where
  entries : List Nat
  nextCursor : Option Nat
deriving DecidableEq

/-- `ref.orderByKey().endAt(earliestEntryId)` applied to a feed: keeps the
keys at or below the bound; no bound keeps the whole feed. -/
def boundFeed (feed : List Nat) : Option Nat → List Nat
  | none => feed
  | some b => feed.filter (fun k => decide (k ≤ b))

/-- `query.limitToLast(n)`: the last `n` keys of the range, in order. -/
def limitToLast (n : Nat) (l : List Nat) : List Nat := l.drop (l.length - n)

/-- `_getPaginatedFeed(uri, pageSize, earliestEntryId)` without post-detail
expansion (`fetchPostDetails = false`), over the feed at `uri`.  The source
fetches `pageSize + 1` entries as a cheap next-page test; when the batch
overflows, the oldest id of the batch is deleted from the returned entries
and becomes the starting id of the `nextPage` closure. -/
def getPaginatedFeed (feed : List Nat) (pageSize : Nat) (earliestEntryId : Option Nat) : Page :=
  if pageSize < (limitToLast (pageSize + 1) (boundFeed feed earliestEntryId)).length then
    { entries := (limitToLast (pageSize + 1) (boundFeed feed earliestEntryId)).drop 1,
      nextCursor := (limitToLast (pageSize + 1) (boundFeed feed earliestEntryId)).head? }
  else
    { entries := limitToLast (pageSize + 1) (boundFeed feed earliestEntryId),
      nextCursor := none }

/-- `_getPaginatedFeed` with `fetchPostDetails = true`.  `postsL` is the key
set of `/posts`; page entries whose post is missing are dangling: they are
dropped from the result, deleted from the feed (`deleteFromFeed`), and the
whole fetch is re-run from the same bounds.  The corrective deletes are
modelled as applied to the feed before the retried read: the client issues
the removals before the re-read on the same connection and the backend
processes one client's operations in order, so the retried query observes
them.  The retry-by-recursion of the source carries no explicit cap; `fuel`
bounds the recursion depth so the recursion is a total function, and
`getPaginatedFeedExpand_terminates` shows fuel exceeding the number of
dangling feed entries is always enough. -/
def danglingOf (postsL : List Nat) (p : Page) : List Nat :=
  p.entries.filter (fun k => !postsL.contains k)

def getPaginatedFeedExpand (postsL : List Nat) (pageSize : Nat) (bound : Option Nat) :
    Nat → List Nat → Option (List Nat × Page)
  | 0, _ => none
  | fuel + 1, feedL =>
    if (danglingOf postsL (getPaginatedFeed feedL pageSize bound)).isEmpty then
      some (feedL,
        { entries := (getPaginatedFeed feedL pageSize bound).entries.filter
            (fun k => postsL.contains k),
          nextCursor := (getPaginatedFeed feedL pageSize bound).nextCursor })
    else
      getPaginatedFeedExpand postsL pageSize bound fuel
        (feedL.filter
          (fun k => !(danglingOf postsL (getPaginatedFeed feedL pageSize bound)).contains k))

/-- Number of feed entries whose referenced post is absent. -/
def danglingCount (postsL feedL : List Nat) : Nat :=
  (feedL.filter (fun k => !postsL.contains k)).length

/-- The database paths the follow/post machinery touches.  Keyed nodes are
modelled as membership functions; `peoplePosts u` is the ascending key list
of `/people/{u}/posts` (a range read enumerates keys in ascending order). -/
@[ext] structure DB where
  posts : Nat → Bool
  peoplePosts : Nat → List Nat
  feed : Nat → Nat → Bool
  following : Nat → Nat → Option DBVal
  followers : Nat → Nat → Bool
  comments : Nat → Nat → Bool
  likes : Nat → Nat → Bool
  hashtags : Nat → Nat → Bool

/-- The multi-path update issued by `startHomeFeedLiveUpdaters` for one
live-inserted post: sets `/feed/{me}/{postKey} = true` and
`/people/{me}/following/{followedUid} = postKey` in one atomic write. -/
def liveInsertWrite (db : DB) (me followedUid postKey : Nat) : DB :=
  { db with
    feed := fun u p => if u = me ∧ p = postKey then true else db.feed u p,
    following := fun u f =>
      if u = me ∧ f = followedUid then some (DBVal.strVal postKey) else db.following u f }

/-- The range the per-followed-user listener of `startHomeFeedLiveUpdaters`
is attached to: `startAt` is applied only when
`followingData.val() instanceof String` holds. -/
def liveUpdaterAnchor (posts : List Nat) (v0 : DBVal) : List Nat :=
  if instanceofString v0 then
    match v0 with
    | DBVal.strVal i => posts.filter (fun k => decide (i ≤ k))
    | DBVal.boolVal _ => posts
  else posts

/-- The key against which `postData.key !== followingData.val()` compares: a
string cursor compares by contents, a boolean cursor never equals a key. -/
def liveUpdaterGuardKey : DBVal → Option Nat
  | DBVal.strVal i => some i
  | DBVal.boolVal _ => none

/-- The replay `child_added` performs when the listener of
`startHomeFeedLiveUpdaters` is attached for one followed user: every existing
post in the attached range is delivered in ascending key order, and each
delivery whose key differs from the captured cursor value issues the
`liveInsertWrite` multi-path update. -/
def homeFeedReplay (db : DB) (me followedUid : Nat) (v0 : DBVal) : DB :=
  (liveUpdaterAnchor (db.peoplePosts followedUid) v0).foldl
    (fun s key =>
      if liveUpdaterGuardKey v0 = some key then s
      else liveInsertWrite s me followedUid key) db

/-- `toggleFollowUser(followedUserId, follow)`: reads the followed user's
post list, then issues one atomic multi-path write that adds/removes every
post to/from the caller's home feed, sets/clears the following cursor to the
last (newest) post key seen by the iteration (`lastPostId`, initialised to
the boolean `true`), and sets/clears the reverse follower index. -/
def toggleFollowUser (db : DB) (me followedUserId : Nat) (follow : Bool) : DB :=
  { db with
    feed := fun u p =>
      if u = me ∧ (db.peoplePosts followedUserId).contains p then follow else db.feed u p,
    following := fun u f =>
      if u = me ∧ f = followedUserId then
        (if follow then
          some ((db.peoplePosts followedUserId).foldl
            (fun _ k => DBVal.strVal k) (DBVal.boolVal true))
        else none)
      else db.following u f,
    followers := fun f u =>
      if f = followedUserId ∧ u = me then follow else db.followers f u }

/-- Completion of a remote write or blob deletion. -/
inductive WriteResult where
  | ok : WriteResult
  | err : WriteResult
deriving DecidableEq

/-- `Promise.all` over three completions: resolves only if all resolve. -/
def promiseAll3 (a b c : WriteResult) : WriteResult :=
  match a, b, c with
  | WriteResult.ok, WriteResult.ok, WriteResult.ok => WriteResult.ok
  | _, _, _ => WriteResult.err

/-- The single atomic multi-path delete of `deletePost`: removes the caller's
own post-list entry, the comments subtree, the likes subtree, the post
record, and the caller's own home-feed entry — and nothing else. -/
def deletePostMeta (db : DB) (me postId : Nat) : DB :=
  { db with
    peoplePosts := fun u =>
      if u = me then (db.peoplePosts u).filter (fun k => decide (k ≠ postId))
      else db.peoplePosts u,
    comments := fun p c => if p = postId then false else db.comments p c,
    likes := fun p u => if p = postId then false else db.likes p u,
    posts := fun p => if p = postId then false else db.posts p,
    feed := fun u p => if u = me ∧ p = postId then false else db.feed u p }

/-- `deletePost(postId, picStorageUri, thumbStorageUri)`: the metadata delete
is issued unconditionally; when a blob URI is present the returned completion
is `Promise.all` of the metadata delete (here modelled as succeeding) and the
two blob deletions, whose outcomes are the `picDel`/`thumbDel` parameters. -/
def deletePost (db : DB) (me postId : Nat) (hasBlob : Bool)
    (picDel thumbDel : WriteResult) : DB × WriteResult :=
  if hasBlob then (deletePostMeta db me postId, promiseAll3 WriteResult.ok picDel thumbDel)
  else (deletePostMeta db me postId, WriteResult.ok)

/-- A concrete database: user 0 authored posts 1, 2, 3; user 5 follows user 0
with stored cursor the post-id string 3. -/
def db0 : DB :=
  { posts := fun _ => true,
    peoplePosts := fun u => if u = 0 then [1, 2, 3] else [],
    feed := fun _ _ => false,
    following := fun u f => if u = 5 ∧ f = 0 then some (DBVal.strVal 3) else none,
    followers := fun _ _ => false,
    comments := fun _ _ => false,
    likes := fun _ _ => false,
    hashtags := fun _ _ => false }

/-- The `Feed` view state: `displayed` is the feed container's post elements
top to bottom, each paired with whether it carries the id-specific marker
class (`fp-post-{id}`) used for deduplication; `newPosts` is the key list of
the `this.newPosts` buffer object in JavaScript property order (post ids are
non-integer strings, so object key order is insertion order and re-assigning
an existing key keeps its position). -/
structure FeedView where
  displayed : List (Nat × Bool)
  newPosts : List Nat
  newPostsButtonVisible : Bool
deriving DecidableEq

/-- `addNewPost(postId, postValue)`: keyed assignment into the pending
buffer (an existing key is overwritten in place, not appended), then the
new-posts affordance is shown. -/
def addNewPost (v : FeedView) (postId : Nat) : FeedView :=
  { v with
    newPosts := if postId ∈ v.newPosts then v.newPosts else v.newPosts ++ [postId],
    newPostsButtonVisible := true }

/-- `showNewPosts()`: drains the whole pending buffer, hides the affordance,
and prepends each drained post to the feed container in buffer order, so the
last drained (newest) id ends topmost; the prepended elements do not receive
the id-specific marker class. -/
def showNewPosts (v : FeedView) : FeedView :=
  { v with
    displayed := v.newPosts.foldl (fun d k => (k, false) :: d) v.displayed,
    newPosts := [],
    newPostsButtonVisible := false }

/-- One iteration of the `addPosts` loop for one post id: if an element with
the id-specific marker class exists it is replaced in place (the replacement
element does not carry the marker class), otherwise the rendered element is
appended to the bottom of the container with the marker class. -/
def addPostsStep (d : List (Nat × Bool)) (postId : Nat) : List (Nat × Bool) :=
  if d.any (fun e => e.1 = postId ∧ e.2) then
    d.map (fun e => if e.1 = postId ∧ e.2 then (postId, false) else e)
  else d ++ [(postId, true)]

/-- `addPosts(posts)`: `Object.keys` of a fetched page is the ascending key
list; the loop runs the index from the end down to 0, i.e. newest to oldest,
applying `addPostsStep` to each id. -/
def addPosts (v : FeedView) (postIds : List Nat) : FeedView :=
  { v with displayed := postIds.reverse.foldl addPostsStep v.displayed }

/-- A view displaying posts 3, 2, 1 (3 topmost), with an empty pending
buffer. -/
def fv0 : FeedView :=
  { displayed := [(3, true), (2, true), (1, true)], newPosts := [], newPostsButtonVisible := false }

/-- The empty view. -/
def fvEmpty : FeedView := { displayed := [], newPosts := [], newPostsButtonVisible := false }

/-- A view already displaying post 9 only. -/
def fv9 : FeedView :=
  { displayed := [(9, true)], newPosts := [], newPostsButtonVisible := false }

/-- The keys `_subscribeToFeed(uri, callback, latestEntryId)` ever delivers
to `callback`, out of the keys ever present in the feed (existing entries are
replayed by `child_added` and later inserts fire it too): with a
`latestEntryId` the listener is range-anchored at it inclusively
(`orderByKey().startAt`), and the callback is guarded by
`feedData.key !== latestEntryId`. -/
def subscribeDelivered (entries : List Nat) (latestEntryId : Option Nat) : List Nat :=
  (match latestEntryId with
    | none => entries
    | some b => entries.filter (fun k => decide (b ≤ k))).filter
    (fun k => decide (latestEntryId ≠ some k))

theorem boundFeed_sublist (feed : List Nat) (b : Option Nat) :
    List.Sublist (boundFeed feed b) feed := by
  cases b with
  | none => exact List.Sublist.refl feed
  | some b => exact List.filter_sublist feed

theorem entries_sublist_bound (feed : List Nat) (N : Nat) (b : Option Nat) :
    List.Sublist (getPaginatedFeed feed N b).entries (boundFeed feed b) := by
  unfold getPaginatedFeed
  split
  · exact (List.drop_sublist 1 _).trans (List.drop_sublist _ _)
  · exact List.drop_sublist _ _

theorem mem_boundFeed_le {feed : List Nat} {c k : Nat}
    (h : k ∈ boundFeed feed (some c)) : k ≤ c := by
  have := (List.mem_filter.mp h).2
  simpa using this

/-- C1: for every feed and page size `N`, if more than `N` entries remain
within the requested bound then `nextPage` is non-null and continuing it
yields only ids strictly smaller (older) than every id of the prior returned
page (in particular than its oldest id); if at most `N` entries remain,
`nextPage` is null and the returned page is exactly the remaining entries. -/
theorem getPaginatedFeed_pages (feed : List Nat) (N : Nat) (bound : Option Nat)
    (hs : List.Pairwise (· < ·) feed) :
    (N < (boundFeed feed bound).length →
      ∃ c, (getPaginatedFeed feed N bound).nextCursor = some c ∧
        ∀ k ∈ (getPaginatedFeed feed N (some c)).entries,
          ∀ j ∈ (getPaginatedFeed feed N bound).entries, k < j) ∧
    ((boundFeed feed bound).length ≤ N →
      (getPaginatedFeed feed N bound).nextCursor = none ∧
      (getPaginatedFeed feed N bound).entries = boundFeed feed bound) := by
  have hbs : List.Pairwise (· < ·) (boundFeed feed bound) :=
    List.Pairwise.sublist (boundFeed_sublist feed bound) hs
  constructor
  · intro hmore
    -- the over-fetched batch has exactly N + 1 elements
    have hlen : (limitToLast (N + 1) (boundFeed feed bound)).length = N + 1 := by
      unfold limitToLast
      rw [List.length_drop]
      omega
    have hbatch : List.Pairwise (· < ·) (limitToLast (N + 1) (boundFeed feed bound)) :=
      List.Pairwise.sublist (List.drop_sublist _ _) hbs
    -- the batch is nonempty: it is c :: t
    obtain ⟨c, t, hct⟩ : ∃ c t, limitToLast (N + 1) (boundFeed feed bound) = c :: t := by
      cases hb : limitToLast (N + 1) (boundFeed feed bound) with
      | nil => rw [hb] at hlen; simp at hlen
      | cons c t => exact ⟨c, t, rfl⟩
    have hcond : N < (limitToLast (N + 1) (boundFeed feed bound)).length := by omega
    refine ⟨c, ?_, ?_⟩
    · unfold getPaginatedFeed
      rw [if_pos hcond, hct]
      rfl
    · intro k hk j hj
      -- j is in the tail of the batch, so c < j
      have hj' : j ∈ t := by
        have : (getPaginatedFeed feed N bound).entries = t := by
          unfold getPaginatedFeed
          rw [if_pos hcond, hct]
          rfl
        rwa [this] at hj
      have hcj : c < j := by
        rw [hct] at hbatch
        exact (List.pairwise_cons.mp hbatch).1 j hj'
      -- k is bounded by c
      have hk' : k ∈ boundFeed feed (some c) :=
        (entries_sublist_bound feed N (some c)).subset hk
      exact Nat.lt_of_le_of_lt (mem_boundFeed_le hk') hcj
  · intro hle
    have hbatch : limitToLast (N + 1) (boundFeed feed bound) = boundFeed feed bound := by
      unfold limitToLast
      have : (boundFeed feed bound).length - (N + 1) = 0 := by omega
      rw [this, List.drop_zero]
    have hcond : ¬ N < (limitToLast (N + 1) (boundFeed feed bound)).length := by
      rw [hbatch]; omega
    unfold getPaginatedFeed
    rw [if_neg hcond, hbatch]
    exact ⟨rfl, rfl⟩

theorem entries_subset_feed {feed : List Nat} {N : Nat} {b : Option Nat} {k : Nat}
    (hk : k ∈ (getPaginatedFeed feed N b).entries) : k ∈ feed :=
  (boundFeed_sublist feed b).subset ((entries_sublist_bound feed N b).subset hk)

theorem length_filter_le_of_imp {l : List Nat} {p q : Nat → Bool}
    (himp : ∀ x, q x = true → p x = true) :
    (l.filter q).length ≤ (l.filter p).length :=
  (List.monotone_filter_right l (fun a ha => himp a ha)).length_le

theorem length_filter_lt_of_mem {l : List Nat} {p q : Nat → Bool}
    (himp : ∀ x, q x = true → p x = true) {d : Nat} (hd : d ∈ l)
    (hp : p d = true) (hq : q d = false) :
    (l.filter q).length < (l.filter p).length := by
  induction l with
  | nil => cases hd
  | cons x t ih =>
    rcases List.mem_cons.mp hd with rfl | hdt
    · rw [List.filter_cons_of_pos hp, List.filter_cons_of_neg (by simp [hq]),
        List.length_cons]
      exact Nat.lt_succ_of_le (length_filter_le_of_imp himp)
    · by_cases hqx : q x = true
      · rw [List.filter_cons_of_pos (himp x hqx), List.filter_cons_of_pos hqx,
          List.length_cons, List.length_cons]
        exact Nat.succ_lt_succ (ih hdt)
      · rw [List.filter_cons_of_neg hqx]
        by_cases hpx : p x = true
        · rw [List.filter_cons_of_pos hpx, List.length_cons]
          exact Nat.lt_succ_of_lt (ih hdt)
        · rw [List.filter_cons_of_neg hpx]
          exact ih hdt

/-- C2: the dangling-reference repair of `_getPaginatedFeed` with
`fetchPostDetails = true` terminates.  Each retry runs from the same bounds
after its corrective deletes have been applied, and each retry round removes
at least one dangling entry from the feed, so any fuel exceeding the number
of dangling feed entries makes the computation return a result: the number
of retries is bounded by the number of dangling entries. -/
theorem getPaginatedFeedExpand_terminates (postsL : List Nat) (N : Nat) (bound : Option Nat) :
    ∀ fuel feedL, danglingCount postsL feedL < fuel →
      ∃ r, getPaginatedFeedExpand postsL N bound fuel feedL = some r := by
  intro fuel
  induction fuel with
  | zero => intro feedL h; omega
  | succ fuel ih =>
    intro feedL h
    by_cases hemp : (danglingOf postsL (getPaginatedFeed feedL N bound)).isEmpty = true
    · exact ⟨_, by rw [getPaginatedFeedExpand, if_pos hemp]⟩
    · rw [getPaginatedFeedExpand, if_neg hemp]
      apply ih
      -- the retry strictly lowers the number of dangling feed entries
      have hne : danglingOf postsL (getPaginatedFeed feedL N bound) ≠ [] := by
        intro hcon
        exact hemp (by rw [hcon]; rfl)
      obtain ⟨d, hdmem⟩ :
          ∃ d, d ∈ danglingOf postsL (getPaginatedFeed feedL N bound) :=
        List.exists_mem_of_ne_nil _ hne
      have hdfeed : d ∈ feedL :=
        entries_subset_feed (List.mem_filter.mp hdmem).1
      have hdnopost : (!postsL.contains d) = true := (List.mem_filter.mp hdmem).2
      have hdecr :
          danglingCount postsL
            (feedL.filter
              (fun k => !(danglingOf postsL (getPaginatedFeed feedL N bound)).contains k)) <
          danglingCount postsL feedL := by
        unfold danglingCount
        rw [List.filter_filter]
        apply length_filter_lt_of_mem (d := d)
        · intro x hx
          simp only [Bool.and_eq_true] at hx
          exact hx.1
        · exact hdfeed
        · exact hdnopost
        · have : (danglingOf postsL (getPaginatedFeed feedL N bound)).contains d = true :=
            List.elem_eq_true_of_mem hdmem
          rw [Bool.and_eq_false_iff]
          right
          rw [this]
          rfl
      omega

theorem getPaginatedFeedExpand_terminates_witness :
    danglingCount [2, 4] [1, 2, 3, 4] < 3 ∧
    ∃ r, getPaginatedFeedExpand [2, 4] 2 none 3 [1, 2, 3, 4] = some r :=
  ⟨by decide, getPaginatedFeedExpand_terminates [2, 4] 2 none 3 [1, 2, 3, 4] (by decide)⟩

theorem getPaginatedFeed_pages_witness :
    List.Pairwise (· < ·) [1, 2, 3, 4, 5] ∧
    ((2 < (boundFeed [1, 2, 3, 4, 5] none).length →
      ∃ c, (getPaginatedFeed [1, 2, 3, 4, 5] 2 none).nextCursor = some c ∧
        ∀ k ∈ (getPaginatedFeed [1, 2, 3, 4, 5] 2 (some c)).entries,
          ∀ j ∈ (getPaginatedFeed [1, 2, 3, 4, 5] 2 none).entries, k < j) ∧
    ((boundFeed [1, 2, 3, 4, 5] none).length ≤ 2 →
      (getPaginatedFeed [1, 2, 3, 4, 5] 2 none).nextCursor = none ∧
      (getPaginatedFeed [1, 2, 3, 4, 5] 2 none).entries = boundFeed [1, 2, 3, 4, 5] none)) :=
  ⟨by decide, getPaginatedFeed_pages [1, 2, 3, 4, 5] 2 none (by decide)⟩

/-- C3 (refuting evidence): with followed user 0 owning posts 1, 2, 3 and the
stored cursor being the post-id string 3, `startHomeFeedLiveUpdaters`
attaches its listener unanchored (the `instanceof String` test is false for
the primitive string the database returns, so `startAt` is never applied),
and the `child_added` replay of the old posts writes the cursor to 1 and
then 2, rewinding it from 3 to 2 — the cursor does not only advance. -/
theorem startHomeFeedLiveUpdaters_rewinds_cursor :
    liveUpdaterAnchor (db0.peoplePosts 0) (DBVal.strVal 3) = [1, 2, 3] ∧
    db0.following 5 0 = some (DBVal.strVal 3) ∧
    (homeFeedReplay db0 5 0 (DBVal.strVal 3)).following 5 0 = some (DBVal.strVal 2) ∧
    2 < 3 := by
  refine ⟨by decide, by decide, by decide, by decide⟩

/-- C5: the multi-path write `startHomeFeedLiveUpdaters` issues for a
live-inserted post id is a keyed set, so delivering the same insertion twice
equals delivering it once, and the home feed holds the entry for that id
(membership, not a count — the store is keyed). -/
theorem liveInsertWrite_idempotent (db : DB) (me followedUid postKey : Nat) :
    liveInsertWrite (liveInsertWrite db me followedUid postKey) me followedUid postKey =
      liveInsertWrite db me followedUid postKey ∧
    (liveInsertWrite db me followedUid postKey).feed me postKey = true := by
  constructor
  · refine DB.ext rfl rfl ?_ ?_ rfl rfl rfl rfl
    · funext u p
      by_cases h : u = me ∧ p = postKey <;> simp [liveInsertWrite, h]
    · funext u f
      by_cases h : u = me ∧ f = followedUid <;> simp [liveInsertWrite, h]
  · simp [liveInsertWrite]

/-- C10: with no `latestEntryId`, `_subscribeToFeed` delivers every entry of
the feed (existing entries are replayed, later inserts fire too); with
`latestEntryId = s` the listener is anchored at `s` inclusively and exactly
the boundary entry `s` is suppressed: a key is delivered iff it is in the
feed and strictly greater than `s`. -/
theorem subscribeToFeed_delivery (entries : List Nat) :
    subscribeDelivered entries none = entries ∧
    ∀ s k, k ∈ subscribeDelivered entries (some s) ↔ (k ∈ entries ∧ s < k) := by
  constructor
  · unfold subscribeDelivered
    simp
  · intro s k
    unfold subscribeDelivered
    simp only [List.mem_filter, decide_eq_true_eq]
    constructor
    · rintro ⟨⟨hk, hle⟩, hne⟩
      exact ⟨hk, Nat.lt_of_le_of_ne hle (fun h => hne (congrArg some h))⟩
    · rintro ⟨hk, hlt⟩
      exact ⟨⟨hk, Nat.le_of_lt hlt⟩,
        fun h => Nat.ne_of_lt hlt (Option.some.inj h)⟩

/-- C7: a view displaying posts 3, 2, 1 (3 topmost) receiving the same live
insert of post 4 twice buffers it once (keyed overwrite), and revealing the
pending posts drains the buffer, hides the affordance, and displays
4, 3, 2, 1 with exactly one copy of 4, the drained id topmost. -/
theorem feedView_duplicate_live_insert :
    (showNewPosts (addNewPost (addNewPost fv0 4) 4)).displayed.map Prod.fst = [4, 3, 2, 1] ∧
    ((showNewPosts (addNewPost (addNewPost fv0 4) 4)).displayed.map Prod.fst).count 4 = 1 ∧
    (showNewPosts (addNewPost (addNewPost fv0 4) 4)).newPosts = [] ∧
    (showNewPosts (addNewPost (addNewPost fv0 4) 4)).newPostsButtonVisible = false := by
  refine ⟨by decide, by decide, by decide, by decide⟩

/-- C8 (refuting evidence): delivering the page with entries 1 and 2 (1
oldest) to a view already displaying post 9 appends the page below the
existing content with the newest entry first: the displayed order is
9, 2, 1, so the oldest entry of the page (1) is not topmost and the page is
not prepended above the prior content. -/
theorem addPosts_order_counterexample :
    (addPosts fv9 [1, 2]).displayed.map Prod.fst = [9, 2, 1] ∧
    ((addPosts fv9 [1, 2]).displayed.map Prod.fst).head? = some 9 ∧
    ((addPosts fv9 [1, 2]).displayed.map Prod.fst).head? ≠ some 1 := by
  refine ⟨by decide, by decide, by decide⟩

/-- C6 (refuting evidence): deleting post 9 (owned by user 5) with a blob
URI whose pic deletion fails yields a rejected completion — `deletePost`
returns `Promise.all` of the metadata delete and the blob deletes — even
though the metadata delete itself is applied and not rolled back. -/
theorem deletePost_blob_failure_counterexample :
    (deletePost db0 5 9 true WriteResult.err WriteResult.ok).snd = WriteResult.err ∧
    (deletePost db0 5 9 true WriteResult.err WriteResult.ok).snd ≠ WriteResult.ok ∧
    (deletePost db0 5 9 true WriteResult.err WriteResult.ok).fst = deletePostMeta db0 5 9 := by
  refine ⟨rfl, by decide, rfl⟩

/-- C6 (amended): `deletePost` issues the metadata removal as one atomic
multi-path delete whose effect is never rolled back by blob-deletion
outcomes — the database component of the result is always exactly the
metadata-deleted database — but the returned completion succeeds iff there
is no blob or both blob deletions succeed, so a blob-deletion failure does
fail the returned completion. -/
theorem deletePost_amended (db : DB) (me postId : Nat) (hasBlob : Bool)
    (picDel thumbDel : WriteResult) :
    (deletePost db me postId hasBlob picDel thumbDel).fst = deletePostMeta db me postId ∧
    ((deletePost db me postId hasBlob picDel thumbDel).snd = WriteResult.ok ↔
      (hasBlob = false ∨ (picDel = WriteResult.ok ∧ thumbDel = WriteResult.ok))) := by
  cases hasBlob <;> cases picDel <;> cases thumbDel <;>
    simp [deletePost, promiseAll3]

theorem deletePost_amended_witness :
    (deletePost db0 5 9 true WriteResult.ok WriteResult.ok).fst = deletePostMeta db0 5 9 ∧
    ((deletePost db0 5 9 true WriteResult.ok WriteResult.ok).snd = WriteResult.ok ↔
      (true = false ∨ (WriteResult.ok = WriteResult.ok ∧ WriteResult.ok = WriteResult.ok))) :=
  deletePost_amended db0 5 9 true WriteResult.ok WriteResult.ok

theorem subscribeToFeed_delivery_witness :
    subscribeDelivered [3, 5] none = [3, 5] ∧
    ((5 : Nat) ∈ subscribeDelivered [3, 5] (some 3) ↔ ((5 : Nat) ∈ [3, 5] ∧ 3 < 5)) :=
  ⟨(subscribeToFeed_delivery [3, 5]).1, (subscribeToFeed_delivery [3, 5]).2 3 5⟩

/-- C4: with B's post list being p1, p2, p3 in creation order (p3 newest)
and A's home feed empty, `toggleFollowUser(B, true)` — one atomic multi-path
write — makes A's home feed exactly {p1, p2, p3}, the following cursor for B
the id p3, and the reverse follower index entry present; the subsequent
`toggleFollowUser(B, false)` removes all three from A's home feed, clears
the cursor, and clears the reverse follower index entry. -/
theorem toggleFollowUser_fanout (db : DB) (A B p1 p2 p3 : Nat)
    (hposts : db.peoplePosts B = [p1, p2, p3])
    (h12 : p1 < p2) (h23 : p2 < p3)
    (hfeed : ∀ p, db.feed A p = false) :
    (∀ p, (toggleFollowUser db A B true).feed A p = true ↔ (p = p1 ∨ p = p2 ∨ p = p3)) ∧
    (toggleFollowUser db A B true).following A B = some (DBVal.strVal p3) ∧
    (toggleFollowUser db A B true).followers B A = true ∧
    (∀ p, (p = p1 ∨ p = p2 ∨ p = p3) →
      (toggleFollowUser (toggleFollowUser db A B true) A B false).feed A p = false) ∧
    (toggleFollowUser (toggleFollowUser db A B true) A B false).following A B = none ∧
    (toggleFollowUser (toggleFollowUser db A B true) A B false).followers B A = false := by
  have hposts1 : (toggleFollowUser db A B true).peoplePosts B = [p1, p2, p3] := hposts
  refine ⟨?_, ?_, ?_, ?_, ?_, ?_⟩
  · intro p
    by_cases hp : p = p1 ∨ p = p2 ∨ p = p3
    · simp [toggleFollowUser, hposts, hp]
    · simp only [toggleFollowUser, hposts]
      rw [if_neg, hfeed p]
      · simp [hp]
      · simp only [List.contains_cons, List.contains_nil, Bool.or_eq_true, beq_iff_eq,
          Bool.false_eq_true, or_false]
        intro hcon
        rcases hcon.2 with h | h | h <;> exact hp (by tauto)
  · simp [toggleFollowUser, hposts]
  · simp [toggleFollowUser]
  · intro p hp
    simp [toggleFollowUser, hposts, hp]
    tauto
  · simp [toggleFollowUser]
  · simp [toggleFollowUser]

theorem toggleFollowUser_fanout_witness :
    (db0.peoplePosts 0 = [1, 2, 3] ∧ 1 < 2 ∧ 2 < 3 ∧ ∀ p, db0.feed 5 p = false) ∧
    ((∀ p, (toggleFollowUser db0 5 0 true).feed 5 p = true ↔ (p = 1 ∨ p = 2 ∨ p = 3)) ∧
     (toggleFollowUser db0 5 0 true).following 5 0 = some (DBVal.strVal 3) ∧
     (toggleFollowUser db0 5 0 true).followers 0 5 = true ∧
     (∀ p, (p = 1 ∨ p = 2 ∨ p = 3) →
       (toggleFollowUser (toggleFollowUser db0 5 0 true) 5 0 false).feed 5 p = false) ∧
     (toggleFollowUser (toggleFollowUser db0 5 0 true) 5 0 false).following 5 0 = none ∧
     (toggleFollowUser (toggleFollowUser db0 5 0 true) 5 0 false).followers 0 5 = false) :=
  ⟨⟨rfl, by decide, by decide, fun _ => rfl⟩,
   toggleFollowUser_fanout db0 5 0 1 2 3 rfl (by decide) (by decide) (fun _ => rfl)⟩

theorem addPostsFold_append :
    ∀ (ks : List Nat) (acc : List (Nat × Bool)), ks.Nodup →
      (∀ k ∈ ks, ∀ e ∈ acc, e.1 ≠ k) →
      List.foldl addPostsStep acc ks = acc ++ ks.map (fun i => (i, true)) := by
  intro ks
  induction ks with
  | nil => intro acc _ _; simp
  | cons k t ih =>
    intro acc hnd hfresh
    have hany : acc.any (fun e => decide (e.1 = k ∧ e.2 = true)) = false := by
      rw [List.any_eq_false]
      intro e he
      simp only [decide_eq_true_eq, not_and]
      intro h1 _
      exact absurd h1 (hfresh k (List.mem_cons_self k t) e he)
    have hstep : addPostsStep acc k = acc ++ [(k, true)] := by
      unfold addPostsStep
      rw [if_neg]
      simp only [hany, Bool.false_eq_true, not_false_eq_true]
    rw [List.foldl_cons, hstep,
      ih (acc ++ [(k, true)]) (List.nodup_cons.mp hnd).2 ?_]
    · rw [List.append_assoc]
      rfl
    · intro j hj e he
      rcases List.mem_append.mp he with he | he
      · exact hfresh j (List.mem_cons_of_mem k hj) e he
      · have he' : e = (k, true) := List.mem_singleton.mp he
        rw [he']
        intro hcon
        have hkj : k = j := hcon
        exact (List.nodup_cons.mp hnd).1 (by rw [hkj]; exact hj)

theorem addPostsFold_replace :
    ∀ (ks : List Nat) (acc : List (Nat × Bool)), ks.Nodup →
      (∀ k ∈ ks, (k, true) ∈ acc) →
      (List.foldl addPostsStep acc ks).map Prod.fst = acc.map Prod.fst := by
  intro ks
  induction ks with
  | nil => intro acc _ _; rfl
  | cons k t ih =>
    intro acc hnd hmem
    have hkmem : (k, true) ∈ acc := hmem k (List.mem_cons_self k t)
    have hany : acc.any (fun e => decide (e.1 = k ∧ e.2 = true)) = true := by
      rw [List.any_eq_true]
      exact ⟨(k, true), hkmem, by simp⟩
    have hstep : addPostsStep acc k =
        acc.map (fun e => if e.1 = k ∧ e.2 = true then (k, false) else e) := by
      unfold addPostsStep
      rw [if_pos]
      simp only [hany]
    rw [List.foldl_cons, hstep, ih _ (List.nodup_cons.mp hnd).2 ?_, List.map_map]
    · apply List.map_congr_left
      intro e _
      by_cases hc : e.1 = k ∧ e.2 = true
      · simp only [Function.comp_apply, if_pos hc]
        exact hc.1.symm
      · simp only [Function.comp_apply, if_neg hc]
    · intro j hj
      have hja : (j, true) ∈ acc := hmem j (List.mem_cons_of_mem k hj)
      have hjk : j ≠ k := by
        intro hcon
        exact (List.nodup_cons.mp hnd).1 (hcon ▸ hj)
      have hfix : (fun e => if e.1 = k ∧ e.2 = true then ((k : Nat), false) else e) (j, true) =
          ((j : Nat), true) := by
        simp [hjk]
      exact hfix ▸ List.mem_map_of_mem _ hja

/-- C8 (amended): `addPosts` iterates the page's entries newest-to-oldest
and appends each to the bottom of the displayed list, so a page of fresh ids
lands below the previously displayed content with the newest entry of the
page first and the oldest bottommost; an id already displayed with its
marker class is replaced in place, so delivering the same page once more
leaves the displayed id sequence unchanged (the replacement loses the
marker class, so this in-place idempotence is guaranteed for one
re-delivery). -/
theorem addPosts_amended (v : FeedView) (postIds : List Nat)
    (hnd : postIds.Nodup)
    (hfresh : ∀ i ∈ postIds, ∀ e ∈ v.displayed, e.1 ≠ i) :
    (addPosts v postIds).displayed =
      v.displayed ++ postIds.reverse.map (fun i => (i, true)) ∧
    (addPosts (addPosts v postIds) postIds).displayed.map Prod.fst =
      (addPosts v postIds).displayed.map Prod.fst := by
  have hrev : postIds.reverse.Nodup := List.nodup_reverse.mpr hnd
  have hfresh' : ∀ i ∈ postIds.reverse, ∀ e ∈ v.displayed, e.1 ≠ i :=
    fun i hi => hfresh i (List.mem_reverse.mp hi)
  have h1 : (addPosts v postIds).displayed =
      v.displayed ++ postIds.reverse.map (fun i => (i, true)) :=
    addPostsFold_append postIds.reverse v.displayed hrev hfresh'
  refine ⟨h1, ?_⟩
  apply addPostsFold_replace postIds.reverse (addPosts v postIds).displayed hrev
  intro j hj
  rw [h1]
  exact List.mem_append_right _ (List.mem_map_of_mem _ hj)

theorem addPosts_amended_witness :
    ([1, 2].Nodup ∧ ∀ i ∈ [1, 2], ∀ e ∈ fvEmpty.displayed, e.1 ≠ i) ∧
    ((addPosts fvEmpty [1, 2]).displayed =
      fvEmpty.displayed ++ [1, 2].reverse.map (fun i => (i, true)) ∧
     (addPosts (addPosts fvEmpty [1, 2]) [1, 2]).displayed.map Prod.fst =
       (addPosts fvEmpty [1, 2]).displayed.map Prod.fst) :=
  ⟨⟨by decide, by decide⟩, addPosts_amended fvEmpty [1, 2] (by decide) (by decide)⟩

theorem expand_page_entries_mem (postsL : List Nat) (N : Nat) (bound : Option Nat) :
    ∀ fuel feedL feedL2 page,
      getPaginatedFeedExpand postsL N bound fuel feedL = some (feedL2, page) →
      ∀ k ∈ page.entries, k ∈ postsL := by
  intro fuel
  induction fuel with
  | zero =>
    intro feedL feedL2 page h
    exact absurd h (by rw [getPaginatedFeedExpand]; intro hcon; cases hcon)
  | succ fuel ih =>
    intro feedL feedL2 page h
    rw [getPaginatedFeedExpand] at h
    by_cases hemp : (danglingOf postsL (getPaginatedFeed feedL N bound)).isEmpty = true
    · rw [if_pos hemp] at h
      injection h with h2
      injection h2 with ha hb
      subst hb
      intro k hk
      have hf := List.mem_filter.mp hk
      exact List.mem_of_elem_eq_true hf.2
    · rw [if_neg hemp] at h
      exact ih _ _ _ h

/-- C9: `deletePost`'s multi-path write removes exactly five paths — the
caller's own post-list entry, the comments subtree, the likes subtree, the
post record, and the caller's own home-feed entry — and leaves every other
path unchanged: other users' home-feed entries for the post, all hashtag
feeds, other users' post lists, other post records, comments and likes of
other posts, and the whole follow graph.  The stale references left behind
are handled only later by the dangling-reference repair of the expanding
paginate, which never returns the deleted id in a page (its page entries
all reference existing posts). -/
theorem deletePost_frame (db : DB) (me postId u p : Nat)
    (postsL feedL feedL2 : List Nat) (fuel N : Nat) (bound : Option Nat) (page : Page)
    (hu : u ≠ me) (hp : p ≠ postId) (hstale : postId ∉ postsL)
    (hrun : getPaginatedFeedExpand postsL N bound fuel feedL = some (feedL2, page)) :
    (deletePostMeta db me postId).posts postId = false ∧
    postId ∉ (deletePostMeta db me postId).peoplePosts me ∧
    (∀ c, (deletePostMeta db me postId).comments postId c = false) ∧
    (∀ v, (deletePostMeta db me postId).likes postId v = false) ∧
    (deletePostMeta db me postId).feed me postId = false ∧
    (deletePostMeta db me postId).feed u postId = db.feed u postId ∧
    (deletePostMeta db me postId).feed me p = db.feed me p ∧
    (deletePostMeta db me postId).feed u p = db.feed u p ∧
    (∀ t q, (deletePostMeta db me postId).hashtags t q = db.hashtags t q) ∧
    (deletePostMeta db me postId).peoplePosts u = db.peoplePosts u ∧
    (deletePostMeta db me postId).posts p = db.posts p ∧
    (∀ c, (deletePostMeta db me postId).comments p c = db.comments p c) ∧
    (∀ v, (deletePostMeta db me postId).likes p v = db.likes p v) ∧
    (∀ a b, (deletePostMeta db me postId).following a b = db.following a b) ∧
    (∀ a b, (deletePostMeta db me postId).followers a b = db.followers a b) ∧
    postId ∉ page.entries := by
  refine ⟨?_, ?_, ?_, ?_, ?_, ?_, ?_, ?_, ?_, ?_, ?_, ?_, ?_, ?_, ?_, ?_⟩
  · simp [deletePostMeta]
  · simp [deletePostMeta]
  · intro c; simp [deletePostMeta]
  · intro v; simp [deletePostMeta]
  · simp [deletePostMeta]
  · simp [deletePostMeta, hu]
  · simp [deletePostMeta, hp]
  · simp [deletePostMeta, hp]
  · intro t q; simp [deletePostMeta]
  · simp [deletePostMeta, hu]
  · simp [deletePostMeta, hp]
  · intro c; simp [deletePostMeta, hp]
  · intro v; simp [deletePostMeta, hp]
  · intro a b; simp [deletePostMeta]
  · intro a b; simp [deletePostMeta]
  · intro hmem
    exact hstale (expand_page_entries_mem postsL N bound fuel feedL feedL2 page hrun postId hmem)

theorem deletePost_frame_witness :
    ((3 : Nat) ≠ 5 ∧ (7 : Nat) ≠ 9 ∧ (9 : Nat) ∉ [2, 4] ∧
      getPaginatedFeedExpand [2, 4] 2 none 3 [1, 2, 3, 4, 9] =
        some ([1, 2, 4], Page.mk [2, 4] (some 1))) ∧
    ((deletePostMeta db0 5 9).feed 3 9 = db0.feed 3 9 ∧
      (9 : Nat) ∉ (Page.mk [2, 4] (some 1)).entries) := by
  have h := deletePost_frame db0 5 9 3 7 [2, 4] [1, 2, 3, 4, 9] [1, 2, 4] 3 2 none
    (Page.mk [2, 4] (some 1)) (by decide) (by decide) (by decide) (by decide)
  obtain ⟨-, -, -, -, -, h6, -, -, -, -, -, -, -, -, -, h16⟩ := h
  exact ⟨⟨by decide, by decide, by decide, by decide⟩, h6, h16⟩

end FriendlyPix
